import Mathlib

/-!
Verification of the GitHub-repository-as-document-store adapter of the notehub
repository, against its natural-language specification.

The development shallowly embeds the TypeScript source:

* `src/lib/githubService.server.ts` — `getFileSha`, `getRepoFileContent`,
  `commitFile`, `getRepoTree`, `getFileContentAtCommit`, `checkRepoExists`,
  `createGithubRepo`;
* `src/app/actions/noteActions.ts` — the GitHub-facing cores of `saveNote`
  and `ensureUserRepo`;
* `src/components/FileTreeSidebar.tsx` — `buildNestedTree`.

The remote GitHub content API and the Node `Buffer` base64/UTF-8 codecs are
external to the repository; they are modelled from the spec (each such
definition carries a doc comment starting with `Modelled from the spec:`).
Machine strings are Lean `String`s, byte sequences are `List Nat` with
explicit `< 256` bounds, and every fallible operation returns `Except`.
Thrown JavaScript values are modelled by `JsError` (either an HTTP error
carrying a status, as thrown by the Octokit transport, or a plain `Error`
carrying only a message).
-/

/-! ## UTF-8 codec.

Modelled from the spec: the "binary-safe (base64) transit encoding" boundary
(§6) together with Node's `Buffer.from(s, 'utf8')` / `buf.toString('utf8')`
conversions used by `saveNote` and the read paths. `utf8EncodeChar` encodes
one Unicode scalar value into its UTF-8 bytes; `utf8DecAux` is a total
decoding state machine (`need` pending continuation bytes, `acc` the
accumulated code point) that emits U+FFFD on malformed input, as Node does. -/

def utf8EncodeChar (c : Char) : List Nat :=
  if c.toNat < 0x80 then [c.toNat]
  else if c.toNat < 0x800 then [0xC0 + c.toNat / 64, 0x80 + c.toNat % 64]
  else if c.toNat < 0x10000 then
    [0xE0 + c.toNat / 4096, 0x80 + c.toNat / 64 % 64, 0x80 + c.toNat % 64]
  else
    [0xF0 + c.toNat / 262144, 0x80 + c.toNat / 4096 % 64, 0x80 + c.toNat / 64 % 64,
      0x80 + c.toNat % 64]

def utf8DecAux (need : Nat) (acc : Nat) : List Nat → List Char
  | [] => if need = 0 then [] else [Char.ofNat 0xFFFD]
  | b :: bs =>
    if need = 0 then
      if b < 0x80 then Char.ofNat b :: utf8DecAux 0 0 bs
      else if b < 0xE0 then utf8DecAux 1 (b - 0xC0) bs
      else if b < 0xF0 then utf8DecAux 2 (b - 0xE0) bs
      else utf8DecAux 3 (b - 0xF0) bs
    else if need = 1 then Char.ofNat (acc * 64 + (b - 0x80)) :: utf8DecAux 0 0 bs
    else utf8DecAux (need - 1) (acc * 64 + (b - 0x80)) bs

def utf8DecodeL (l : List Nat) : List Char := utf8DecAux 0 0 l

def utf8EncodeL (cs : List Char) : List Nat := (cs.map utf8EncodeChar).flatten

def utf8EncodeS (s : String) : List Nat := utf8EncodeL s.data

def utf8DecodeS (l : List Nat) : String := String.mk (utf8DecodeL l)

theorem char_toNat_lt (c : Char) : c.toNat < 0x110000 := by
  have h := c.valid
  have e : c.toNat = c.val.toNat := rfl
  rcases h with h | h <;> omega

theorem utf8DecAux_zero (b : Nat) (bs : List Nat) :
    utf8DecAux 0 0 (b :: bs) =
      if b < 0x80 then Char.ofNat b :: utf8DecAux 0 0 bs
      else if b < 0xE0 then utf8DecAux 1 (b - 0xC0) bs
      else if b < 0xF0 then utf8DecAux 2 (b - 0xE0) bs
      else utf8DecAux 3 (b - 0xF0) bs := rfl

theorem utf8DecAux_one (acc b : Nat) (bs : List Nat) :
    utf8DecAux 1 acc (b :: bs) = Char.ofNat (acc * 64 + (b - 0x80)) :: utf8DecAux 0 0 bs := rfl

theorem utf8DecAux_two (acc b : Nat) (bs : List Nat) :
    utf8DecAux 2 acc (b :: bs) = utf8DecAux 1 (acc * 64 + (b - 0x80)) bs := rfl

theorem utf8DecAux_three (acc b : Nat) (bs : List Nat) :
    utf8DecAux 3 acc (b :: bs) = utf8DecAux 2 (acc * 64 + (b - 0x80)) bs := rfl

theorem utf8_decode_encode_cons (c : Char) (bs : List Nat) :
    utf8DecAux 0 0 (utf8EncodeChar c ++ bs) = c :: utf8DecAux 0 0 bs := by
  have hlt := char_toNat_lt c
  have hofNat := Char.ofNat_toNat c
  unfold utf8EncodeChar
  by_cases h1 : c.toNat < 0x80
  · rw [if_pos h1, List.cons_append, List.nil_append, utf8DecAux_zero, if_pos h1, hofNat]
  · by_cases h2 : c.toNat < 0x800
    · rw [if_neg h1, if_pos h2, List.cons_append, List.cons_append, List.nil_append,
        utf8DecAux_zero, if_neg (by omega), if_pos (by omega), utf8DecAux_one]
      have e : (0xC0 + c.toNat / 64 - 0xC0) * 64 + (0x80 + c.toNat % 64 - 0x80) = c.toNat := by
        omega
      rw [e, hofNat]
    · by_cases h3 : c.toNat < 0x10000
      · rw [if_neg h1, if_neg h2, if_pos h3, List.cons_append, List.cons_append,
          List.cons_append, List.nil_append, utf8DecAux_zero, if_neg (by omega),
          if_neg (by omega), if_pos (by omega), utf8DecAux_two, utf8DecAux_one]
        have e : ((0xE0 + c.toNat / 4096 - 0xE0) * 64 + (0x80 + c.toNat / 64 % 64 - 0x80)) * 64 +
            (0x80 + c.toNat % 64 - 0x80) = c.toNat := by omega
        rw [e, hofNat]
      · rw [if_neg h1, if_neg h2, if_neg h3, List.cons_append, List.cons_append,
          List.cons_append, List.cons_append, List.nil_append, utf8DecAux_zero,
          if_neg (by omega), if_neg (by omega), if_neg (by omega), utf8DecAux_three,
          utf8DecAux_two, utf8DecAux_one]
        have e : (((0xF0 + c.toNat / 262144 - 0xF0) * 64 + (0x80 + c.toNat / 4096 % 64 - 0x80)) * 64 +
            (0x80 + c.toNat / 64 % 64 - 0x80)) * 64 + (0x80 + c.toNat % 64 - 0x80) = c.toNat := by
          omega
        rw [e, hofNat]

theorem utf8_roundtrip (cs : List Char) : utf8DecodeL (utf8EncodeL cs) = cs := by
  induction cs with
  | nil => rfl
  | cons c cs ih =>
    simp only [utf8EncodeL, utf8DecodeL, List.map_cons, List.flatten_cons] at *
    rw [utf8_decode_encode_cons, ih]

theorem utf8_roundtrip_string (s : String) : utf8DecodeS (utf8EncodeS s) = s := by
  rw [utf8EncodeS, utf8DecodeS, utf8_roundtrip]

theorem utf8EncodeChar_lt_256 (c : Char) : ∀ b ∈ utf8EncodeChar c, b < 256 := by
  have hlt := char_toNat_lt c
  unfold utf8EncodeChar
  split
  · intro b hb; simp at hb; omega
  · split
    · intro b hb; simp at hb; rcases hb with h | h <;> omega
    · split
      · intro b hb; simp at hb; rcases hb with h | h | h <;> omega
      · intro b hb; simp at hb; rcases hb with h | h | h | h <;> omega

theorem utf8EncodeL_lt_256 (cs : List Char) : ∀ b ∈ utf8EncodeL cs, b < 256 := by
  intro b hb
  simp only [utf8EncodeL, List.mem_flatten, List.mem_map] at hb
  obtain ⟨l, ⟨c, _, rfl⟩, hbl⟩ := hb
  exact utf8EncodeChar_lt_256 c b hbl

/-! ## Base64 codec.

Modelled from the spec: Node's `Buffer.prototype.toString('base64')` and
`Buffer.from(s, 'base64')` used on both sides of the content boundary.
Encoding is the canonical RFC 4648 alphabet with `=` padding; the decoder is
total (short trailing chunks are dropped, as Node tolerates them). -/

def b64Char (v : Nat) : Char :=
  if v < 26 then Char.ofNat (65 + v)
  else if v < 52 then Char.ofNat (97 + (v - 26))
  else if v < 62 then Char.ofNat (48 + (v - 52))
  else if v = 62 then '+'
  else '/'

def b64Val (c : Char) : Nat :=
  if 65 ≤ c.toNat ∧ c.toNat ≤ 90 then c.toNat - 65
  else if 97 ≤ c.toNat ∧ c.toNat ≤ 122 then c.toNat - 71
  else if 48 ≤ c.toNat ∧ c.toNat ≤ 57 then c.toNat + 4
  else if c = '+' then 62
  else if c = '/' then 63
  else 0

theorem b64Val_b64Char_fin : ∀ v : Fin 64, b64Val (b64Char v.val) = v.val := by decide

theorem b64Char_ne_pad_fin : ∀ v : Fin 64, b64Char v.val ≠ '=' := by decide

theorem b64Val_b64Char (v : Nat) (hv : v < 64) : b64Val (b64Char v) = v :=
  b64Val_b64Char_fin ⟨v, hv⟩

theorem b64Char_ne_pad (v : Nat) (hv : v < 64) : b64Char v ≠ '=' :=
  b64Char_ne_pad_fin ⟨v, hv⟩

def b64EncodeL : List Nat → List Char
  | [] => []
  | [a] => [b64Char (a / 4), b64Char (a % 4 * 16), '=', '=']
  | [a, b] => [b64Char (a / 4), b64Char (a % 4 * 16 + b / 16), b64Char (b % 16 * 4), '=']
  | a :: b :: c :: rest =>
    b64Char (a / 4) :: b64Char (a % 4 * 16 + b / 16) :: b64Char (b % 16 * 4 + c / 64) ::
      b64Char (c % 64) :: b64EncodeL rest

def b64DecodeL : List Char → List Nat
  | c1 :: c2 :: c3 :: c4 :: rest =>
    if c3 = '=' then [b64Val c1 * 4 + b64Val c2 / 16]
    else if c4 = '=' then
      [b64Val c1 * 4 + b64Val c2 / 16, b64Val c2 % 16 * 16 + b64Val c3 / 4]
    else
      (b64Val c1 * 4 + b64Val c2 / 16) :: (b64Val c2 % 16 * 16 + b64Val c3 / 4) ::
        (b64Val c3 % 4 * 64 + b64Val c4) :: b64DecodeL rest
  | _ => []

def b64EncodeS (bs : List Nat) : String := String.mk (b64EncodeL bs)

theorem b64EncodeL_one (a : Nat) :
    b64EncodeL [a] = [b64Char (a / 4), b64Char (a % 4 * 16), '=', '='] := rfl

theorem b64EncodeL_two (a b : Nat) :
    b64EncodeL [a, b] =
      [b64Char (a / 4), b64Char (a % 4 * 16 + b / 16), b64Char (b % 16 * 4), '='] := rfl

theorem b64EncodeL_chunk (a b c : Nat) (rest : List Nat) :
    b64EncodeL (a :: b :: c :: rest) =
      b64Char (a / 4) :: b64Char (a % 4 * 16 + b / 16) :: b64Char (b % 16 * 4 + c / 64) ::
        b64Char (c % 64) :: b64EncodeL rest := rfl

theorem b64DecodeL_cons (c1 c2 c3 c4 : Char) (rest : List Char) :
    b64DecodeL (c1 :: c2 :: c3 :: c4 :: rest) =
      if c3 = '=' then [b64Val c1 * 4 + b64Val c2 / 16]
      else if c4 = '=' then
        [b64Val c1 * 4 + b64Val c2 / 16, b64Val c2 % 16 * 16 + b64Val c3 / 4]
      else
        (b64Val c1 * 4 + b64Val c2 / 16) :: (b64Val c2 % 16 * 16 + b64Val c3 / 4) ::
          (b64Val c3 % 4 * 64 + b64Val c4) :: b64DecodeL rest := rfl

theorem b64_roundtrip (bs : List Nat) (h : ∀ x ∈ bs, x < 256) :
    b64DecodeL (b64EncodeL bs) = bs := by
  induction bs using b64EncodeL.induct with
  | case1 => rfl
  | case2 a =>
    have ha : a < 256 := h a (by simp)
    have h1 := b64Val_b64Char (a / 4) (by omega)
    have h2 := b64Val_b64Char (a % 4 * 16) (by omega)
    rw [b64EncodeL_one, b64DecodeL_cons, if_pos rfl, h1, h2]
    simp only [List.cons.injEq, and_true]
    omega
  | case3 a b =>
    have ha : a < 256 := h a (by simp)
    have hb : b < 256 := h b (by simp)
    have h1 := b64Val_b64Char (a / 4) (by omega)
    have h2 := b64Val_b64Char (a % 4 * 16 + b / 16) (by omega)
    have h3 := b64Val_b64Char (b % 16 * 4) (by omega)
    have hne := b64Char_ne_pad (b % 16 * 4) (by omega)
    rw [b64EncodeL_two, b64DecodeL_cons, if_neg hne, if_pos rfl, h1, h2, h3]
    simp only [List.cons.injEq, and_true]
    constructor <;> omega
  | case4 a b c rest ih =>
    have ha : a < 256 := h a (by simp)
    have hb : b < 256 := h b (by simp)
    have hc : c < 256 := h c (by simp)
    have h1 := b64Val_b64Char (a / 4) (by omega)
    have h2 := b64Val_b64Char (a % 4 * 16 + b / 16) (by omega)
    have h3 := b64Val_b64Char (b % 16 * 4 + c / 64) (by omega)
    have h4 := b64Val_b64Char (c % 64) (by omega)
    have hne3 := b64Char_ne_pad (b % 16 * 4 + c / 64) (by omega)
    have hne4 := b64Char_ne_pad (c % 64) (by omega)
    have ih' := ih (fun x hx => h x (by simp [hx]))
    rw [b64EncodeL_chunk, b64DecodeL_cons, if_neg hne3, if_neg hne4, h1, h2, h3, h4, ih']
    simp only [List.cons.injEq, and_true]
    refine ⟨by omega, by omega, by omega⟩

theorem b64_roundtrip_string (bs : List Nat) (h : ∀ x ∈ bs, x < 256) :
    b64DecodeL (b64EncodeS bs).data = bs := b64_roundtrip bs h

/-! ## Path helpers.

These mirror the JavaScript string operations the source uses on repository
paths: `path.substring(0, path.lastIndexOf('/'))`, `path.split('/').pop()`,
`path.startsWith(prefix)` and `path.endsWith(suffix)`. They are defined on
the character list of the string so that they evaluate by `rfl`/`decide`. -/

def parentChars (cs : List Char) : List Char :=
  ((cs.reverse.dropWhile (· ≠ '/')).drop 1).reverse

/-- Mirrors `node.path.substring(0, node.path.lastIndexOf('/'))`: everything
before the last slash, or the empty string when the path has no slash. -/
def parentPathOf (p : String) : String := String.mk (parentChars p.data)

/-- Mirrors the final path segment, everything after the last slash. -/
def lastSegment (p : String) : String :=
  String.mk (p.data.reverse.takeWhile (· ≠ '/')).reverse

/-- Mirrors `item.path.split('/').pop() || item.path` from `buildNestedTree`:
the last segment, or the whole path when that segment is empty (falsy). -/
def nameOf (p : String) : String :=
  if lastSegment p = "" then p else lastSegment p

/-- Mirrors JavaScript `s.startsWith(pre)`. -/
def startsWithS (s pre : String) : Bool := pre.data.isPrefixOf s.data

/-- Mirrors JavaScript `s.endsWith(suf)`. -/
def endsWithS (s suf : String) : Bool := suf.data.isSuffixOf s.data

def splitSlash (cs : List Char) : List (List Char) :=
  match cs with
  | [] => [[]]
  | c :: cs' =>
    match splitSlash cs' with
    | [] => [[]]
    | g :: gs => if c = '/' then [] :: g :: gs else (c :: g) :: gs

/-- Path segments of a slash-separated path, as in `p.split('/')`. -/
def segmentsOf (p : String) : List String := (splitSlash p.data).map String.mk

/-- A path has a hidden segment when any slash-separated component begins
with a dot (the condition the specification attributes to tree filtering). -/
def hasHiddenSegment (p : String) : Bool :=
  (segmentsOf p).any (fun seg => startsWithS seg ".")

/-! ## Errors and host response shapes.

`JsError` models a thrown JavaScript value: `.http` is an Octokit transport
error carrying an HTTP status (these are `Error` instances whose `status`
field the source inspects), `.error` is a plain `new Error(message)`.
The response inductives model, from the spec, the remote host's
get-content-at-path, create-or-update-content and get-recursive-tree
answers as the source discriminates them. -/

inductive JsError
  | http (status : Nat) (message : String)
  | error (message : String)
deriving Repr, DecidableEq

/-- Mirrors `error instanceof Error ? error.message : ...`; both modelled
throwable shapes are `Error`s carrying a message. -/
def messageOf : JsError → String
  | .http _ m => m
  | .error m => m

/-- Modelled from the spec: a get-content-at-path response. `file` carries
the blob id and the base64 transit encoding of the content; `dir` is the
array answer for a directory; `other` covers a non-file, non-directory
entry or a file whose content field is missing; `err` is a rejected call. -/
inductive GetContentResp
  | file (sha : String) (contentB64 : String)
  | dir
  | other
  | err (status : Nat) (message : String)
deriving Repr, DecidableEq

structure CommitData where
  contentSha : String
  commitSha : String
deriving Repr, DecidableEq

/-- Modelled from the spec: a create-or-update-content response. -/
inductive PutResp
  | ok (contentSha : String) (commitSha : String)
  | err (status : Nat) (message : String)
deriving Repr, DecidableEq

structure RawTreeItem where
  path : String
  type : String
  sha : String
deriving Repr, DecidableEq

/-- Modelled from the spec: a recursive tree listing with the host's
truncation indicator. -/
structure TreeData where
  tree : List RawTreeItem
  truncated : Bool
deriving Repr, DecidableEq

inductive TreeResp
  | ok (d : TreeData)
  | err (status : Nat) (message : String)
deriving Repr, DecidableEq

/-! ## Service functions of `src/lib/githubService.server.ts`.

Each function is embedded response-parametrically: the host's answer to the
one call the function makes is an explicit argument, so a theorem over all
responses covers every host behaviour. -/

/-- Embeds the `getFileSha` helper: a file entry with a truthy `sha` yields
that sha; a directory or other entry yields `undefined` (a warning in the
source); a 404 yields `undefined`; any other thrown error is re-thrown
unwrapped. -/
def getFileSha (resp : GetContentResp) : Except JsError (Option String) :=
  match resp with
  | .file sha _ => if sha = "" then .ok none else .ok (some sha)
  | .dir => .ok none
  | .other => .ok none
  | .err status message =>
    if status = 404 then .ok none else .error (.http status message)

/-- Embeds `getRepoFileContent`: guard on falsy parameters, base64-decode a
file answer, `null` for a directory or unexpected shape, `null` for 404,
wrapped rethrow otherwise. -/
def getRepoFileContent (token owner repo path : String) (resp : GetContentResp) :
    Except JsError (Option String) :=
  if token = "" ∨ owner = "" ∨ repo = "" ∨ path = "" then
    .error (.error "Missing required parameters for getRepoFileContent.")
  else
    match resp with
    | .file _ contentB64 => .ok (some (utf8DecodeS (b64DecodeL contentB64.data)))
    | .dir => .ok none
    | .other => .ok none
    | .err status message =>
      if status = 404 then .ok none
      else .error (.error ("Could not get file content from GitHub: " ++ message))

def commitFileGuardMsg : String :=
  "Missing required parameters for commitFile (token, owner, repo, path, message are required; content can be empty string)."

/-- Embeds `commitFile`: guard on falsy parameters other than the content
(an empty content string is explicitly allowed), then the fresh sha lookup
(whose non-404 failures propagate unwrapped, since the lookup sits outside
the try block), then the create-or-update call whose failures are all
wrapped into one generic `Error`. `put` is the host's answer as a function
of the encoded content and the sha the function passes along. -/
def commitFile (token owner repo path contentBase64 message : String)
    (lookupResp : GetContentResp) (put : String → Option String → PutResp) :
    Except JsError CommitData :=
  if token = "" ∨ owner = "" ∨ repo = "" ∨ path = "" ∨ message = "" then
    .error (.error commitFileGuardMsg)
  else
    match getFileSha lookupResp with
    | .error e => .error e
    | .ok currentSha =>
      match put contentBase64 currentSha with
      | .ok contentSha commitSha => .ok ⟨contentSha, commitSha⟩
      | .err _ msg => .error (.error ("Could not commit file to GitHub: " ++ msg))

/-- Embeds the filter lambda inside `getRepoTree`: keep blobs and trees with
a truthy path not starting with `.` and not ending with `.gitkeep`. -/
def treeItemKeep (item : RawTreeItem) : Bool :=
  (item.type == "blob" || item.type == "tree") && item.path != "" &&
    !(startsWithS item.path ".") && !(endsWithS item.path ".gitkeep")

/-- Embeds `getRepoTree`: guard, then return the filtered listing. The
source only `console.warn`s on `data.truncated`; the flag does not reach
the returned value. Failures are wrapped into one generic `Error`. -/
def getRepoTree (token owner repo tree_sha : String) (resp : TreeResp) :
    Except JsError (List RawTreeItem) :=
  if token = "" ∨ owner = "" ∨ repo = "" ∨ tree_sha = "" then
    .error (.error "Missing required parameters for getRepoTree.")
  else
    match resp with
    | .ok d => .ok (d.tree.filter treeItemKeep)
    | .err _ message => .error (.error ("Could not get repo tree: " ++ message))

/-- Embeds `getFileContentAtCommit`: like `getRepoFileContent` but with the
pinning commit sha in the guard and in the request. -/
def getFileContentAtCommit (token owner repo path commitSha : String)
    (resp : GetContentResp) : Except JsError (Option String) :=
  if token = "" ∨ owner = "" ∨ repo = "" ∨ path = "" ∨ commitSha = "" then
    .error (.error "Missing required parameters for getFileContentAtCommit.")
  else
    match resp with
    | .file _ contentB64 => .ok (some (utf8DecodeS (b64DecodeL contentB64.data)))
    | .dir => .ok none
    | .other => .ok none
    | .err status message =>
      if status = 404 then .ok none
      else .error (.error ("Could not get file content at commit from GitHub: " ++ message))

/-- Embeds `checkRepoExists` over the set of repositories existing on the
host for the account: the host's 404-on-absent answer and the catch branch
folding it to `false` are composed, so the call returns whether the
repository exists; the falsy-parameter guard throws. -/
def checkRepoExists (token owner repo : String) (repos : List String) :
    Except JsError Bool :=
  if token = "" ∨ owner = "" ∨ repo = "" then
    .error (.error "GitHub token, owner, and repo name are required.")
  else .ok (repos.contains repo)

/-- Embeds `createGithubRepo` over the host repository set: the guard
throws on falsy parameters; creating an already-existing name is rejected
by the host and surfaces as the wrapped creation error; otherwise the
repository is added. Returns the updated host set. -/
def createGithubRepo (token repoName : String) (repos : List String) :
    Except JsError (List String) :=
  if token = "" ∨ repoName = "" then
    .error (.error "GitHub token and repo name are required.")
  else if repos.contains repoName then
    .error (.error "Could not create GitHub repository: name already exists on this account")
  else .ok (repoName :: repos)

/-! ## Host state model.

Modelled from the spec: the remote repository-hosting API (§6) for one
repository on its default branch. `files` is the branch tip as a flat
path-to-blob map; `commits` records, newest first, each commit id with the
snapshot it produced; `fresh` generates the next content-addressed ids. A
path is a directory when some stored path extends it past a slash. Writes
follow the optimistic-concurrency contract of §3: an update must carry the
current blob sha, a create must carry none, and a mismatch is rejected with
the host's 409 conflict. -/

structure FileRec where
  bytes : List Nat
  sha : String
deriving Repr, DecidableEq

structure Host where
  files : List (String × FileRec)
  commits : List (String × List (String × FileRec))
  fresh : Nat
deriving Repr, DecidableEq

def lookupFile (fs : List (String × FileRec)) (p : String) : Option FileRec :=
  (fs.find? (fun e => e.1 == p)).map (fun e => e.2)

def isDirIn (fs : List (String × FileRec)) (p : String) : Bool :=
  fs.any (fun e => (p.data ++ ['/']).isPrefixOf e.1.data)

def upsertFile (fs : List (String × FileRec)) (p : String) (r : FileRec) :
    List (String × FileRec) :=
  if fs.any (fun e => e.1 == p) then fs.map (fun e => if e.1 == p then (p, r) else e)
  else fs ++ [(p, r)]

def blobShaOf (n : Nat) : String := String.mk (List.replicate (n + 1) 'b')

def commitShaOf (n : Nat) : String := String.mk (List.replicate (n + 1) 'c')

def hostGetContent (h : Host) (p : String) : GetContentResp :=
  match lookupFile h.files p with
  | some fr => .file fr.sha (b64EncodeS fr.bytes)
  | none => if isDirIn h.files p then .dir else .err 404 "Not Found"

def hostDoCommit (h : Host) (p : String) (contentBase64 : String) : PutResp × Host :=
  let fr : FileRec := ⟨b64DecodeL contentBase64.data, blobShaOf h.fresh⟩
  let files1 := upsertFile h.files p fr
  (.ok fr.sha (commitShaOf h.fresh),
   { files := files1, commits := (commitShaOf h.fresh, files1) :: h.commits,
     fresh := h.fresh + 1 })

def hostPut (h : Host) (p : String) (contentBase64 : String) (sha : Option String) :
    PutResp × Host :=
  if isDirIn h.files p then (.err 422 "path exists as a directory", h)
  else
    match lookupFile h.files p, sha with
    | some fr, some s =>
      if s = fr.sha then hostDoCommit h p contentBase64
      else (.err 409 "is at a different sha than the one supplied", h)
    | some _, none => (.err 422 "sha is required when updating an existing file", h)
    | none, some _ => (.err 422 "sha supplied but the file does not exist", h)
    | none, none => hostDoCommit h p contentBase64

def lookupCommit (h : Host) (k : String) : Option (List (String × FileRec)) :=
  (h.commits.find? (fun e => e.1 == k)).map (fun e => e.2)

def hostGetContentAt (h : Host) (p k : String) : GetContentResp :=
  match lookupCommit h k with
  | none => .err 404 "No commit found for the ref"
  | some snap =>
    match lookupFile snap p with
    | some fr => .file fr.sha (b64EncodeS fr.bytes)
    | none => if isDirIn snap p then .dir else .err 404 "Not Found"

/-! ## Service functions against the host model. -/

/-- Embeds `commitFile` run against the host model: the lookup response and
the put response are the host's, and a successful put advances the host. -/
def commitFileS (token owner repo path contentBase64 message : String) (h : Host) :
    Except JsError CommitData × Host :=
  if token = "" ∨ owner = "" ∨ repo = "" ∨ path = "" ∨ message = "" then
    (.error (.error commitFileGuardMsg), h)
  else
    match getFileSha (hostGetContent h path) with
    | .error e => (.error e, h)
    | .ok currentSha =>
      match hostPut h path contentBase64 currentSha with
      | (.ok contentSha commitSha, h1) => (.ok ⟨contentSha, commitSha⟩, h1)
      | (.err _ msg, h1) =>
        (.error (.error ("Could not commit file to GitHub: " ++ msg)), h1)

def getRepoFileContentS (token owner repo path : String) (h : Host) :
    Except JsError (Option String) :=
  getRepoFileContent token owner repo path (hostGetContent h path)

def getFileContentAtCommitS (token owner repo path commitSha : String) (h : Host) :
    Except JsError (Option String) :=
  getFileContentAtCommit token owner repo path commitSha (hostGetContentAt h path commitSha)

/-! ## Server action cores of `src/app/actions/noteActions.ts`.

The Supabase session/profile plumbing around these actions is external glue
(§1 excludes it); the embedded cores start where the decrypted token, the
GitHub login and the stored repository name are in hand, which is where the
GitHub-facing logic of the source begins. -/

structure SaveNoteResult where
  success : Bool
  error : Option String := none
deriving Repr, DecidableEq

/-- Embeds the GitHub-facing core of `saveNote`: reject an empty path,
build the commit message `Update note: <path>`, base64-encode the UTF-8
content, call `commitFile`, and fold a thrown error into a failure result. -/
def saveNote (token owner repo notePath content : String) (h : Host) :
    SaveNoteResult × Host :=
  if notePath = "" then ({ success := false, error := some "Note path is required." }, h)
  else
    match commitFileS token owner repo notePath (b64EncodeS (utf8EncodeS content))
        ("Update note: " ++ notePath) h with
    | (.ok _, h1) => ({ success := true }, h1)
    | (.error e, h1) => ({ success := false, error := some (messageOf e) }, h1)

structure EnsureRepoResult where
  success : Bool
  repoName : Option String := none
  error : Option String := none
  created : Option Bool := none
deriving Repr, DecidableEq

/-- World state seen by `ensureUserRepo`: the `github_repo_name` column of
the user profile row, and the set of repositories existing on the host. -/
structure World where
  profileRepoName : Option String
  ghRepos : List String
deriving Repr, DecidableEq

/-- Embeds the GitHub-facing core of `ensureUserRepo` (noteActions): a
profile that already names a repository returns immediately with
`created := false`; otherwise the standard name `notehub-notes-<owner>` is
checked on the host, created only when absent, and recorded in the profile;
`created` reports whether a creation happened. Thrown errors become failure
results via the surrounding catch. The profile update is external glue and
is modelled as succeeding. -/
def ensureUserRepo (token owner : String) (w : World) : EnsureRepoResult × World :=
  match w.profileRepoName with
  | some n => ({ success := true, repoName := some n, created := some false }, w)
  | none =>
    match checkRepoExists token owner ("notehub-notes-" ++ owner) w.ghRepos with
    | .error e => ({ success := false, error := some (messageOf e) }, w)
    | .ok repoExisted =>
      if repoExisted then
        ({ success := true, repoName := some ("notehub-notes-" ++ owner),
           created := some false },
         { w with profileRepoName := some ("notehub-notes-" ++ owner) })
      else
        match createGithubRepo token ("notehub-notes-" ++ owner) w.ghRepos with
        | .error e => ({ success := false, error := some (messageOf e) }, w)
        | .ok repos1 =>
          ({ success := true, repoName := some ("notehub-notes-" ++ owner),
             created := some true },
           { profileRepoName := some ("notehub-notes-" ++ owner), ghRepos := repos1 })

/-! ## Tree materialization of `src/components/FileTreeSidebar.tsx`.

`buildNestedTree` turns the flat listing into nested nodes: a first pass
fills a path-keyed map (later duplicates overwrite, non-numeric JavaScript
object keys keep first-insertion order), a second pass pushes each node
onto the children array of `map[parentPath]` when that entry exists and is
a `tree`, or onto the root array otherwise, and a final pass sorts every
sibling list with the folders-first comparator. -/

structure GitHubTreeItem where
  path : String
  type : String
deriving Repr, DecidableEq

structure PNode where
  path : String
  name : String
  type : String
deriving Repr, DecidableEq

def upsertNode (m : List PNode) (n : PNode) : List PNode :=
  if m.any (fun o => o.path == n.path) then
    m.map (fun o => if o.path == n.path then n else o)
  else m ++ [n]

/-- Embeds the first `items.forEach` pass: skip falsy or non-blob/tree
entries, store a node keyed by path (an empty string stands for a falsy
field of the loosely-typed item). -/
def nodeMap (items : List GitHubTreeItem) : List PNode :=
  items.foldl
    (fun m item =>
      if item.path == "" || !(item.type == "blob" || item.type == "tree") then m
      else upsertNode m ⟨item.path, nameOf item.path, item.type⟩)
    []

def lookupNode (m : List PNode) (p : String) : Option PNode :=
  m.find? (fun o => o.path == p)

/-- Embeds the attachment condition of the hierarchy pass:
`parentPath && map[parentPath] && map[parentPath].type === 'tree'`. -/
def isChildAttached (m : List PNode) (n : PNode) : Bool :=
  match lookupNode m (parentPathOf n.path) with
  | some q => parentPathOf n.path != "" && q.type == "tree"
  | none => false

/-- Nodes the hierarchy pass pushes onto the root array. -/
def rootNodes (m : List PNode) : List PNode :=
  m.filter (fun n => !isChildAttached m n)

/-- Children array of the map node `q` after the hierarchy pass: the map
keys are distinct, so the nodes pushed onto `map[q.path].children` are
exactly those attached under `q.path`, in map order. -/
def childNodes (m : List PNode) (q : PNode) : List PNode :=
  m.filter (fun n => isChildAttached m n && parentPathOf n.path == q.path)

/-- Models `a.name.localeCompare(b.name) <= 0` with code-point
lexicographic comparison of the names. -/
def leChars : List Char → List Char → Bool
  | [], _ => true
  | _ :: _, [] => false
  | a :: as, b :: bs =>
    if a.toNat < b.toNat then true
    else if b.toNat < a.toNat then false
    else leChars as bs

/-- Embeds the sort comparator: folders before files, then by name. -/
def nodeCmpLE (a b : PNode) : Bool :=
  if a.type == "tree" && b.type == "blob" then true
  else if a.type == "blob" && b.type == "tree" then false
  else leChars a.name.data b.name.data

def insertNode (x : PNode) : List PNode → List PNode
  | [] => [x]
  | y :: ys => if nodeCmpLE x y then x :: y :: ys else y :: insertNode x ys

/-- Embeds `sortNodes` at one sibling level. `Array.prototype.sort` under a
consistent comparator returns a list sorted by it with the same members;
insertion sort realizes that deterministically. -/
def sortNodes (l : List PNode) : List PNode := l.foldr insertNode []

inductive NTree where
  | node (path name type : String) (children : List NTree)

def NTree.path : NTree → String
  | .node p _ _ _ => p

def NTree.name : NTree → String
  | .node _ n _ _ => n

def NTree.type : NTree → String
  | .node _ _ t _ => t

def NTree.children : NTree → List NTree
  | .node _ _ _ cs => cs

/-- Materializes the node for `n` with its recursively sorted children.
The fuel bounds the nesting depth; ancestors have strictly shorter paths
and distinct map entries, so `(nodeMap items).length` fuel is never
exhausted on a node that still has children. -/
def buildNode (m : List PNode) : Nat → PNode → NTree
  | 0, n => .node n.path n.name n.type []
  | fuel + 1, n =>
    .node n.path n.name n.type ((sortNodes (childNodes m n)).map (buildNode m fuel))

/-- Embeds `buildNestedTree`: build the map, attach children, sort every
level, and return the sorted root array. -/
def buildNestedTree (items : List GitHubTreeItem) : List NTree :=
  (sortNodes (rootNodes (nodeMap items))).map
    (buildNode (nodeMap items) (nodeMap items).length)

/-- Reachability inside a materialized tree: `Descend r t` when `t` is `r`
or sits somewhere below it through children. -/
inductive Descend (r : NTree) : NTree → Prop
  | refl : Descend r r
  | child {u v : NTree} : Descend r u → v ∈ u.children → Descend r v

/-! ## Sorting lemmas. -/

theorem mem_insertNode {y x : PNode} {l : List PNode} :
    y ∈ insertNode x l ↔ y = x ∨ y ∈ l := by
  induction l with
  | nil => simp [insertNode]
  | cons z zs ih =>
    rw [insertNode]
    by_cases h : nodeCmpLE x z = true
    · rw [if_pos h]
      simp
    · rw [if_neg h]
      simp [ih]
      tauto

theorem mem_sortNodes {y : PNode} {l : List PNode} : y ∈ sortNodes l ↔ y ∈ l := by
  induction l with
  | nil => simp [sortNodes]
  | cons z zs ih =>
    rw [show sortNodes (z :: zs) = insertNode z (sortNodes zs) from rfl, mem_insertNode]
    simp [ih]

theorem leChars_nil (bs : List Char) : leChars [] bs = true := by
  cases bs <;> rfl

theorem leChars_cons {a b : Char} {as bs : List Char} :
    leChars (a :: as) (b :: bs) = true ↔
      a.toNat < b.toNat ∨ (a.toNat = b.toNat ∧ leChars as bs = true) := by
  rw [leChars]
  by_cases h1 : a.toNat < b.toNat
  · simp [h1]
  · by_cases h2 : b.toNat < a.toNat
    · simp [h1, h2]
      omega
    · have he : a.toNat = b.toNat := by omega
      simp [h1, h2, he]

theorem leChars_total (as : List Char) : ∀ bs, leChars as bs = true ∨ leChars bs as = true := by
  induction as with
  | nil => intro bs; left; exact leChars_nil bs
  | cons a as ih =>
    intro bs
    cases bs with
    | nil => right; exact leChars_nil _
    | cons b bs =>
      rcases Nat.lt_trichotomy a.toNat b.toNat with h | h | h
      · left; rw [leChars_cons]; left; exact h
      · rcases ih bs with hx | hx
        · left; rw [leChars_cons]; right; exact ⟨h, hx⟩
        · right; rw [leChars_cons]; right; exact ⟨h.symm, hx⟩
      · right; rw [leChars_cons]; left; exact h

theorem leChars_trans {as bs cs : List Char} (h1 : leChars as bs = true)
    (h2 : leChars bs cs = true) : leChars as cs = true := by
  induction as generalizing bs cs with
  | nil => exact leChars_nil cs
  | cons a as ih =>
    cases bs with
    | nil => rw [show leChars (a :: as) [] = false from rfl] at h1; exact absurd h1 (by simp)
    | cons b bs =>
      cases cs with
      | nil => rw [show leChars (b :: bs) [] = false from rfl] at h2; exact absurd h2 (by simp)
      | cons c cs =>
        rw [leChars_cons] at h1 h2 ⊢
        rcases h1 with h1 | ⟨h1e, h1r⟩
        · rcases h2 with h2 | ⟨h2e, _⟩
          · left; omega
          · left; omega
        · rcases h2 with h2 | ⟨h2e, h2r⟩
          · left; omega
          · right; exact ⟨by omega, ih h1r h2r⟩

def isBlobOrTree (n : PNode) : Prop := n.type = "blob" ∨ n.type = "tree"

theorem nodeCmpLE_total (a b : PNode) : nodeCmpLE a b = true ∨ nodeCmpLE b a = true := by
  unfold nodeCmpLE
  by_cases w : (a.type == "tree") = true <;> by_cases x : (a.type == "blob") = true <;>
    by_cases y : (b.type == "tree") = true <;> by_cases z : (b.type == "blob") = true <;>
    simp [w, x, y, z] <;> exact leChars_total _ _

theorem nodeCmpLE_trans {a b c : PNode} (ha : isBlobOrTree a) (hb : isBlobOrTree b)
    (hc : isBlobOrTree c) (h1 : nodeCmpLE a b = true) (h2 : nodeCmpLE b c = true) :
    nodeCmpLE a c = true := by
  unfold nodeCmpLE at *
  rcases ha with ha | ha <;> rcases hb with hb | hb <;> rcases hc with hc | hc <;>
    simp [ha, hb, hc] at h1 h2 ⊢ <;>
    first
      | rfl
      | exact leChars_trans h1 h2

theorem pairwise_insertNode {x : PNode} {l : List PNode}
    (hx : isBlobOrTree x) (hl : ∀ y ∈ l, isBlobOrTree y)
    (hp : l.Pairwise (fun a b => nodeCmpLE a b = true)) :
    (insertNode x l).Pairwise (fun a b => nodeCmpLE a b = true) := by
  induction l with
  | nil => simp [insertNode]
  | cons y ys ih =>
    rw [insertNode]
    by_cases h : nodeCmpLE x y = true
    · rw [if_pos h]
      refine List.Pairwise.cons ?_ hp
      intro z hz
      rcases List.mem_cons.mp hz with rfl | hz
      · exact h
      · exact nodeCmpLE_trans hx (hl y (by simp)) (hl z (by simp [hz])) h
          (List.rel_of_pairwise_cons hp hz)
    · rw [if_neg h]
      refine List.Pairwise.cons ?_ ?_
      · intro z hz
        rw [mem_insertNode] at hz
        rcases hz with rfl | hz
        · rcases nodeCmpLE_total z y with ht | ht
          · exact absurd ht h
          · exact ht
        · exact List.rel_of_pairwise_cons hp hz
      · exact ih (fun w hw => hl w (by simp [hw])) hp.of_cons

theorem pairwise_sortNodes {l : List PNode} (hl : ∀ y ∈ l, isBlobOrTree y) :
    (sortNodes l).Pairwise (fun a b => nodeCmpLE a b = true) := by
  induction l with
  | nil => simp [sortNodes]
  | cons z zs ih =>
    rw [show sortNodes (z :: zs) = insertNode z (sortNodes zs) from rfl]
    exact pairwise_insertNode (hl z (by simp))
      (fun y hy => hl y (by simp [mem_sortNodes.mp hy]))
      (ih (fun y hy => hl y (by simp [hy])))

/-! ## Node map invariants. -/

theorem mem_upsertNode {y x : PNode} {m : List PNode} (h : y ∈ upsertNode m x) :
    y = x ∨ y ∈ m := by
  unfold upsertNode at h
  split at h
  · rcases List.mem_map.mp h with ⟨o, ho, heq⟩
    by_cases hc : (o.path == x.path) = true
    · rw [if_pos hc] at heq
      left; exact heq.symm
    · rw [if_neg hc] at heq
      right; exact heq ▸ ho
  · rcases List.mem_append.mp h with h | h
    · right; exact h
    · left; simpa using h

/-- Every node the first pass stores is a blob or tree with a nonempty path
and a name computed by `nameOf`. -/
theorem nodeMap_shape {items : List GitHubTreeItem} :
    ∀ n ∈ nodeMap items, (n.type = "blob" ∨ n.type = "tree") ∧ n.path ≠ "" ∧
      n.name = nameOf n.path := by
  suffices h : ∀ m : List PNode,
      (∀ n ∈ m, (n.type = "blob" ∨ n.type = "tree") ∧ n.path ≠ "" ∧ n.name = nameOf n.path) →
      ∀ n ∈ items.foldl
        (fun m item =>
          if item.path == "" || !(item.type == "blob" || item.type == "tree") then m
          else upsertNode m ⟨item.path, nameOf item.path, item.type⟩) m,
        (n.type = "blob" ∨ n.type = "tree") ∧ n.path ≠ "" ∧ n.name = nameOf n.path by
    exact h [] (by simp)
  induction items with
  | nil => intro m hm; simpa using hm
  | cons item items ih =>
    intro m hm
    rw [List.foldl_cons]
    by_cases hguard : (item.path == "" || !(item.type == "blob" || item.type == "tree")) = true
    · rw [if_pos hguard]
      exact ih m hm
    · rw [if_neg hguard]
      refine ih _ ?_
      intro n hn
      rcases mem_upsertNode hn with rfl | hn
      · have hpath : item.path ≠ "" := by
          intro hp
          exact hguard (by simp [hp])
        have ht : item.type = "blob" ∨ item.type = "tree" := by
          by_cases hb : item.type = "blob"
          · exact Or.inl hb
          by_cases htr : item.type = "tree"
          · exact Or.inr htr
          exact absurd (by simp [hb, htr]) hguard
        exact ⟨ht, hpath, rfl⟩
      · exact hm n hn

theorem isBlobOrTree_of_mem_nodeMap {items : List GitHubTreeItem} {n : PNode}
    (h : n ∈ nodeMap items) : isBlobOrTree n :=
  (nodeMap_shape n h).1

def pathsOf (m : List PNode) : List String := m.map PNode.path

theorem pathsOf_upsert_existing {m : List PNode} {x : PNode}
    (h : (m.any (fun e => e.path == x.path)) = true) :
    pathsOf (upsertNode m x) = pathsOf m := by
  unfold upsertNode
  rw [if_pos h]
  unfold pathsOf
  rw [List.map_map]
  refine List.map_congr_left ?_
  intro o _
  by_cases hc : (o.path == x.path) = true
  · simp only [Function.comp_apply, if_pos hc]
    exact (beq_iff_eq.mp hc).symm
  · simp only [Function.comp_apply, if_neg hc]

theorem pathsOf_upsert_new {m : List PNode} {x : PNode}
    (h : ¬ (m.any (fun e => e.path == x.path)) = true) :
    pathsOf (upsertNode m x) = pathsOf m ++ [x.path] := by
  unfold upsertNode
  rw [if_neg h]
  unfold pathsOf
  simp

theorem nodup_pathsOf_upsertNode {m : List PNode} {x : PNode}
    (h : (pathsOf m).Nodup) : (pathsOf (upsertNode m x)).Nodup := by
  by_cases hany : (m.any (fun e => e.path == x.path)) = true
  · rw [pathsOf_upsert_existing hany]
    exact h
  · rw [pathsOf_upsert_new hany]
    have hx : x.path ∉ pathsOf m := by
      intro hmem
      apply hany
      rcases List.mem_map.mp hmem with ⟨o, ho, hop⟩
      exact List.any_eq_true.mpr ⟨o, ho, by simp [hop]⟩
    exact (List.perm_append_singleton x.path (pathsOf m)).nodup_iff.mpr
      (List.nodup_cons.mpr ⟨hx, h⟩)

theorem nodeMap_paths_nodup (items : List GitHubTreeItem) :
    (pathsOf (nodeMap items)).Nodup := by
  suffices h : ∀ m : List PNode, (pathsOf m).Nodup →
      (pathsOf (items.foldl
        (fun m item =>
          if item.path == "" || !(item.type == "blob" || item.type == "tree") then m
          else upsertNode m ⟨item.path, nameOf item.path, item.type⟩) m)).Nodup by
    exact h [] (by simp [pathsOf])
  induction items with
  | nil => intro m hm; simpa using hm
  | cons item items ih =>
    intro m hm
    rw [List.foldl_cons]
    by_cases hguard : (item.path == "" || !(item.type == "blob" || item.type == "tree")) = true
    · rw [if_pos hguard]; exact ih m hm
    · rw [if_neg hguard]; exact ih _ (nodup_pathsOf_upsertNode hm)

theorem lookupNode_eq_some {m : List PNode} {p : String} {q : PNode}
    (h : lookupNode m p = some q) : q ∈ m ∧ q.path = p := by
  unfold lookupNode at h
  refine ⟨List.mem_of_find?_eq_some h, ?_⟩
  have h2 := List.find?_some h
  simpa using h2

theorem lookupNode_of_mem {m : List PNode} {q : PNode}
    (hnd : (pathsOf m).Nodup) (hq : q ∈ m) : lookupNode m q.path = some q := by
  induction m with
  | nil => simp at hq
  | cons o m ih =>
    unfold lookupNode
    rcases List.mem_cons.mp hq with rfl | hq'
    · exact List.find?_cons_of_pos _ (by simp)
    · have ho : o.path ∉ pathsOf m := (List.nodup_cons.mp hnd).1
      have hne : (o.path == q.path) = false := by
        rw [beq_eq_false_iff_ne]
        intro he
        exact ho (he ▸ List.mem_map.mpr ⟨q, hq', rfl⟩)
      rw [List.find?_cons_of_neg _ (by simp [hne])]
      exact ih (List.nodup_cons.mp hnd).2 hq'

/-! ## Materialization lemmas. -/

theorem buildNode_path (m : List PNode) (fuel : Nat) (n : PNode) :
    (buildNode m fuel n).path = n.path := by cases fuel <;> rfl

theorem buildNode_name (m : List PNode) (fuel : Nat) (n : PNode) :
    (buildNode m fuel n).name = n.name := by cases fuel <;> rfl

theorem buildNode_type (m : List PNode) (fuel : Nat) (n : PNode) :
    (buildNode m fuel n).type = n.type := by cases fuel <;> rfl

theorem buildNode_children_zero (m : List PNode) (n : PNode) :
    (buildNode m 0 n).children = [] := rfl

theorem buildNode_children_succ (m : List PNode) (fuel : Nat) (n : PNode) :
    (buildNode m (fuel + 1) n).children =
      (sortNodes (childNodes m n)).map (buildNode m fuel) := rfl

theorem mem_childNodes {m : List PNode} {q n : PNode} (h : n ∈ childNodes m q) :
    n ∈ m ∧ isChildAttached m n = true ∧ parentPathOf n.path = q.path := by
  have := List.mem_filter.mp h
  refine ⟨this.1, ?_, ?_⟩
  · have hb := this.2
    simp only [Bool.and_eq_true] at hb
    exact hb.1
  · have hb := this.2
    simp only [Bool.and_eq_true, beq_iff_eq] at hb
    exact hb.2

theorem mem_rootNodes {m : List PNode} {n : PNode} (h : n ∈ rootNodes m) :
    n ∈ m ∧ isChildAttached m n = false := by
  have := List.mem_filter.mp h
  exact ⟨this.1, by simpa using this.2⟩

theorem rootNodes_of_not_attached {m : List PNode} {n : PNode} (hn : n ∈ m)
    (h : isChildAttached m n = false) : n ∈ rootNodes m :=
  List.mem_filter.mpr ⟨hn, by simp [h]⟩

/-- Everything reachable inside the materialized forest is the build of some
map node. -/
theorem descend_from_map {items : List GitHubTreeItem} {r t : NTree}
    (hr : r ∈ buildNestedTree items) (hd : Descend r t) :
    ∃ fuel n, n ∈ nodeMap items ∧ t = buildNode (nodeMap items) fuel n := by
  induction hd with
  | refl =>
    unfold buildNestedTree at hr
    rcases List.mem_map.mp hr with ⟨n0, hn0, hb⟩
    exact ⟨(nodeMap items).length, n0,
      (mem_rootNodes (mem_sortNodes.mp hn0)).1, hb.symm⟩
  | child hdu hv ih =>
    obtain ⟨fuel, n, hn, rfl⟩ := ih
    cases fuel with
    | zero => rw [buildNode_children_zero] at hv; simp at hv
    | succ f =>
      rw [buildNode_children_succ] at hv
      rcases List.mem_map.mp hv with ⟨n', hn', hb⟩
      exact ⟨f, n', (mem_childNodes (mem_sortNodes.mp hn')).1, hb.symm⟩

/-! ## Host model lemmas. -/

theorem append_ne_empty_left {a : String} (b : String) (ha : a ≠ "") : a ++ b ≠ "" := by
  intro h
  apply ha
  have hd : (a ++ b).data = [] := congrArg String.data h
  rw [String.data_append] at hd
  rcases List.append_eq_nil.mp hd with ⟨h1, _⟩
  exact String.ext h1

theorem lookupFile_map_replace (fs : List (String × FileRec)) (p : String) (r : FileRec)
    (hany : (fs.any (fun e => e.1 == p)) = true) :
    lookupFile (fs.map (fun e => if e.1 == p then (p, r) else e)) p = some r := by
  induction fs with
  | nil => simp at hany
  | cons e fs ih =>
    by_cases he : (e.1 == p) = true
    · unfold lookupFile
      simp only [List.map_cons, if_pos he]
      rw [List.find?_cons_of_pos _ (by simp)]
      rfl
    · simp only [List.map_cons, if_neg he]
      unfold lookupFile at ih ⊢
      rw [List.find?_cons_of_neg _ (by simpa using he)]
      refine ih ?_
      rcases List.any_eq_true.mp hany with ⟨x, hx, hxx⟩
      rcases List.mem_cons.mp hx with rfl | hx
      · exact absurd hxx (by simpa using he)
      · exact List.any_eq_true.mpr ⟨x, hx, hxx⟩

theorem lookupFile_append_new (fs : List (String × FileRec)) (p : String) (r : FileRec)
    (hany : ¬ (fs.any (fun e => e.1 == p)) = true) :
    lookupFile (fs ++ [(p, r)]) p = some r := by
  induction fs with
  | nil => unfold lookupFile; simp
  | cons e fs ih =>
    have he : (e.1 == p) = false := by
      rw [Bool.eq_false_iff]
      intro hx
      exact hany (by simp [List.any_cons, hx])
    unfold lookupFile at ih ⊢
    rw [List.cons_append, List.find?_cons_of_neg _ (by simp [he])]
    refine ih ?_
    intro hx
    exact hany (by simp [List.any_cons, hx])

theorem lookupFile_upsert (fs : List (String × FileRec)) (p : String) (r : FileRec) :
    lookupFile (upsertFile fs p r) p = some r := by
  unfold upsertFile
  by_cases hany : (fs.any (fun e => e.1 == p)) = true
  · rw [if_pos hany]
    exact lookupFile_map_replace fs p r hany
  · rw [if_neg hany]
    exact lookupFile_append_new fs p r hany

theorem not_isPrefixOf_self_slash (p : String) :
    ((p.data ++ ['/']).isPrefixOf p.data) = false := by
  rw [Bool.eq_false_iff]
  intro h
  have hpre := List.isPrefixOf_iff_prefix.mp h
  have hlen := hpre.length_le
  simp at hlen

theorem isDirIn_upsert (fs : List (String × FileRec)) (p : String) (r : FileRec) :
    isDirIn (upsertFile fs p r) p = isDirIn fs p := by
  unfold upsertFile isDirIn
  by_cases hany : (fs.any (fun e => e.1 == p)) = true
  · rw [if_pos hany, List.any_map]
    have hfun : ((fun e : String × FileRec => (p.data ++ ['/']).isPrefixOf e.1.data) ∘
        fun e => if e.1 == p then (p, r) else e) =
        fun e : String × FileRec => (p.data ++ ['/']).isPrefixOf e.1.data := by
      funext e
      by_cases hc : (e.1 == p) = true
      · simp only [Function.comp_apply, if_pos hc]
        rw [beq_iff_eq.mp hc]
      · simp only [Function.comp_apply, if_neg hc]
    rw [hfun]
  · rw [if_neg hany, List.any_append]
    simp [not_isPrefixOf_self_slash]

theorem upsert_sha_ne {fs : List (String × FileRec)} {p : String} {r : FileRec}
    (hwf : ∀ e ∈ fs, e.2.sha ≠ "") (hr : r.sha ≠ "") :
    ∀ e ∈ upsertFile fs p r, e.2.sha ≠ "" := by
  intro e he
  unfold upsertFile at he
  split at he
  · rcases List.mem_map.mp he with ⟨o, ho, heq⟩
    by_cases hc : (o.1 == p) = true
    · rw [if_pos hc] at heq
      rw [← heq]
      exact hr
    · rw [if_neg hc] at heq
      exact heq ▸ hwf o ho
  · rcases List.mem_append.mp he with h | h
    · exact hwf e h
    · have : e = (p, r) := by simpa using h
      rw [this]
      exact hr

theorem blobShaOf_ne_empty (n : Nat) : blobShaOf n ≠ "" := by
  intro h
  have hd := congrArg String.data h
  simp [blobShaOf] at hd

theorem commitShaOf_inj {a b : Nat} (h : commitShaOf a = commitShaOf b) : a = b := by
  have hd := congrArg (fun s => s.data.length) h
  simpa [commitShaOf] using hd

theorem lookupFile_mem {fs : List (String × FileRec)} {p : String} {fr : FileRec}
    (h : lookupFile fs p = some fr) : (p, fr) ∈ fs := by
  unfold lookupFile at h
  cases hfind : fs.find? (fun e => e.1 == p) with
  | none => rw [hfind] at h; simp at h
  | some e =>
    rw [hfind] at h
    simp only [Option.map] at h
    have hm := List.mem_of_find?_eq_some hfind
    have hp := List.find?_some hfind
    simp only [beq_iff_eq] at hp
    have he : e = (p, fr) := by
      cases e
      simp only at hp h
      have h2 := Option.some.inj h
      simp [hp, h2]
    exact he ▸ hm

/-- A guarded, well-formed commit against the host model always succeeds,
with the computable new state. -/
theorem commitFileS_success
    (token owner repo path c64 message : String) (h : Host)
    (ht : token ≠ "") (ho : owner ≠ "") (hr : repo ≠ "") (hp : path ≠ "") (hm : message ≠ "")
    (hdir : isDirIn h.files path = false)
    (hwf : ∀ e ∈ h.files, e.2.sha ≠ "") :
    commitFileS token owner repo path c64 message h =
      (.ok ⟨blobShaOf h.fresh, commitShaOf h.fresh⟩,
       { files := upsertFile h.files path ⟨b64DecodeL c64.data, blobShaOf h.fresh⟩,
         commits := (commitShaOf h.fresh,
           upsertFile h.files path ⟨b64DecodeL c64.data, blobShaOf h.fresh⟩) :: h.commits,
         fresh := h.fresh + 1 }) := by
  unfold commitFileS
  rw [if_neg (by simp [ht, ho, hr, hp, hm])]
  cases hlk : lookupFile h.files path with
  | none => simp [hostGetContent, hlk, hdir, getFileSha, hostPut, hostDoCommit]
  | some fr =>
    have hsha : fr.sha ≠ "" := hwf (path, fr) (lookupFile_mem hlk)
    simp [hostGetContent, hlk, getFileSha, hsha, hostPut, hdir, hostDoCommit]

theorem getRepoFileContentS_found
    (token owner repo path : String) (h : Host) (fr : FileRec)
    (ht : token ≠ "") (ho : owner ≠ "") (hr : repo ≠ "") (hp : path ≠ "")
    (hlk : lookupFile h.files path = some fr) (hb : ∀ x ∈ fr.bytes, x < 256) :
    getRepoFileContentS token owner repo path h = .ok (some (utf8DecodeS fr.bytes)) := by
  unfold getRepoFileContentS
  have hresp : hostGetContent h path = .file fr.sha (b64EncodeS fr.bytes) := by
    unfold hostGetContent
    rw [hlk]
  rw [hresp]
  unfold getRepoFileContent
  rw [if_neg (by simp [ht, ho, hr, hp])]
  show Except.ok (some (utf8DecodeS (b64DecodeL (b64EncodeS fr.bytes).data))) =
    Except.ok (some (utf8DecodeS fr.bytes))
  rw [b64_roundtrip_string fr.bytes hb]

/-! ## Claim theorems. -/

/-- C2: for all paths and content strings, writing via `saveNote` (which
base64-encodes the UTF-8 content and commits through `commitFile`) and then
reading via `getRepoFileContent` (which base64-decodes the host answer)
returns exactly the content written. The hypotheses are the validity
conditions under which the write goes through: nonempty credentials and
path, the path not currently a directory, and well-formed stored blob ids. -/
theorem saveNote_roundtrip
    (token owner repo path content : String) (h : Host)
    (ht : token ≠ "") (ho : owner ≠ "") (hr : repo ≠ "") (hp : path ≠ "")
    (hdir : isDirIn h.files path = false)
    (hwf : ∀ e ∈ h.files, e.2.sha ≠ "") :
    (saveNote token owner repo path content h).1.success = true ∧
    getRepoFileContentS token owner repo path (saveNote token owner repo path content h).2 =
      .ok (some content) := by
  have hm : ("Update note: " ++ path) ≠ "" := append_ne_empty_left path (by decide)
  have hcommit := commitFileS_success token owner repo path
    (b64EncodeS (utf8EncodeS content)) ("Update note: " ++ path) h ht ho hr hp hm hdir hwf
  have hbyteseq : b64DecodeL (b64EncodeS (utf8EncodeS content)).data = utf8EncodeS content :=
    b64_roundtrip_string _ (utf8EncodeL_lt_256 content.data)
  constructor
  · unfold saveNote
    rw [if_neg hp, hcommit]
  · have hfr : lookupFile (saveNote token owner repo path content h).2.files path =
        some ⟨b64DecodeL (b64EncodeS (utf8EncodeS content)).data, blobShaOf h.fresh⟩ := by
      unfold saveNote
      rw [if_neg hp, hcommit]
      exact lookupFile_upsert _ _ _
    have hread := getRepoFileContentS_found token owner repo path _
      ⟨b64DecodeL (b64EncodeS (utf8EncodeS content)).data, blobShaOf h.fresh⟩
      ht ho hr hp hfr (by rw [hbyteseq]; exact utf8EncodeL_lt_256 content.data)
    rw [hread]
    have : utf8DecodeS (b64DecodeL (b64EncodeS (utf8EncodeS content)).data) = content := by
      rw [hbyteseq]
      exact utf8_roundtrip_string content
    rw [show (⟨b64DecodeL (b64EncodeS (utf8EncodeS content)).data, blobShaOf h.fresh⟩ :
      FileRec).bytes = b64DecodeL (b64EncodeS (utf8EncodeS content)).data from rfl, this]

/-- Witness for C2 at a concrete instance: saving "hi" to "n.md" on an
empty host and reading it back yields exactly "hi". -/
theorem saveNote_roundtrip_witness :
    (saveNote "t" "o" "r" "n.md" "hi" ⟨[], [], 0⟩).1.success = true ∧
    getRepoFileContentS "t" "o" "r" "n.md"
      (saveNote "t" "o" "r" "n.md" "hi" ⟨[], [], 0⟩).2 = .ok (some "hi") :=
  saveNote_roundtrip "t" "o" "r" "n.md" "hi" ⟨[], [], 0⟩
    (by decide) (by decide) (by decide) (by decide) rfl (by simp)

/-- C5: for every path, `getRepoFileContent` returns null — and does not
raise — both when the host reports not-found (404) and when the path
resolves to a directory; any other host failure propagates as an error. -/
theorem getRepoFileContent_null_not_throw
    (token owner repo path : String)
    (ht : token ≠ "") (ho : owner ≠ "") (hr : repo ≠ "") (hp : path ≠ "") :
    (∀ msg, getRepoFileContent token owner repo path (.err 404 msg) = .ok none) ∧
    getRepoFileContent token owner repo path .dir = .ok none ∧
    (∀ status msg, status ≠ 404 →
      getRepoFileContent token owner repo path (.err status msg) =
        .error (.error ("Could not get file content from GitHub: " ++ msg))) := by
  refine ⟨fun msg => ?_, ?_, fun status msg hs => ?_⟩ <;>
    unfold getRepoFileContent <;> rw [if_neg (by simp [ht, ho, hr, hp])]
  all_goals try rfl
  show (if status = 404 then (Except.ok none : Except JsError (Option String))
    else Except.error (JsError.error ("Could not get file content from GitHub: " ++ msg))) =
    Except.error (JsError.error ("Could not get file content from GitHub: " ++ msg))
  rw [if_neg hs]

/-- Witness for C5 at concrete responses. -/
theorem getRepoFileContent_null_not_throw_witness :
    getRepoFileContent "t" "o" "r" "p" (.err 404 "Not Found") = .ok none ∧
    getRepoFileContent "t" "o" "r" "p" .dir = .ok none ∧
    getRepoFileContent "t" "o" "r" "p" (.err 500 "boom") =
      .error (.error ("Could not get file content from GitHub: " ++ "boom")) :=
  ⟨(getRepoFileContent_null_not_throw "t" "o" "r" "p"
      (by decide) (by decide) (by decide) (by decide)).1 "Not Found",
   (getRepoFileContent_null_not_throw "t" "o" "r" "p"
      (by decide) (by decide) (by decide) (by decide)).2.1,
   (getRepoFileContent_null_not_throw "t" "o" "r" "p"
      (by decide) (by decide) (by decide) (by decide)).2.2 500 "boom" (by decide)⟩

/-- C10: `commitFile` raises on an empty commit message — like an empty
token, owner, repo or path — before any host interaction (the result is the
guard error for every lookup response and every put behaviour), whereas
empty content passes the guard and commits. -/
theorem commitFile_empty_guard
    (token owner repo path content message : String) :
    ((token = "" ∨ owner = "" ∨ repo = "" ∨ path = "" ∨ message = "") →
      ∀ lookupResp put,
        commitFile token owner repo path content message lookupResp put =
          .error (.error commitFileGuardMsg)) ∧
    (token ≠ "" → owner ≠ "" → repo ≠ "" → path ≠ "" → message ≠ "" →
      ∀ contentSha commitSha,
        commitFile token owner repo path "" message (.err 404 "Not Found")
          (fun _ _ => .ok contentSha commitSha) = .ok ⟨contentSha, commitSha⟩) := by
  constructor
  · intro hg lookupResp put
    unfold commitFile
    rw [if_pos hg]
  · intro ht ho hr hp hm contentSha commitSha
    unfold commitFile
    rw [if_neg (by simp [ht, ho, hr, hp, hm])]
    rfl

/-- Witness for C10: an empty message is rejected with the guard error even
with a willing host, while empty content with a nonempty message commits. -/
theorem commitFile_empty_guard_witness :
    commitFile "t" "o" "r" "p" "" "" (.err 404 "Not Found")
      (fun _ _ => .ok "b1" "c1") = .error (.error commitFileGuardMsg) ∧
    commitFile "t" "o" "r" "p" "" "Update note: p" (.err 404 "Not Found")
      (fun _ _ => .ok "b1" "c1") = .ok ⟨"b1", "c1"⟩ :=
  ⟨(commitFile_empty_guard "t" "o" "r" "p" "" "").1 (by simp) _ _,
   (commitFile_empty_guard "t" "o" "r" "p" "" "Update note: p").2
     (by decide) (by decide) (by decide) (by decide) (by decide) "b1" "c1"⟩

/-- C1 counterexample: a 409 SHA-conflict rejection of the write step and a
503 transport failure carrying the same message produce literally equal
`commitFile` results, and that result is a plain generic error. No function
of the result can distinguish a Conflict kind, so the claim that
`commitFile` reports a stale-sha rejection as a distinct,
caller-inspectable Conflict error kind is false. -/
theorem commitFile_conflict_indistinguishable :
    commitFile "t" "o" "r" "p" "Zm9v" "m" (.file "sha0" "Zm9v")
        (fun _ _ => .err 409 "p does not match sha0") =
      commitFile "t" "o" "r" "p" "Zm9v" "m" (.file "sha0" "Zm9v")
        (fun _ _ => .err 503 "p does not match sha0") ∧
    commitFile "t" "o" "r" "p" "Zm9v" "m" (.file "sha0" "Zm9v")
        (fun _ _ => .err 409 "p does not match sha0") =
      .error (.error "Could not commit file to GitHub: p does not match sha0") := by
  constructor <;> rfl

/-- C1 amended: a write whose create-or-update step is rejected by the host
(the SHA-conflict 409 included) is always surfaced as a failure — never as
a silent success — but only as a generic `Error` whose message prefixes
"Could not commit file to GitHub: " onto the host message; the status code
carrying the conflict distinction is discarded. -/
theorem commitFile_put_rejection_generic
    (token owner repo path content message : String)
    (ht : token ≠ "") (ho : owner ≠ "") (hr : repo ≠ "") (hp : path ≠ "") (hm : message ≠ "")
    {lookupResp : GetContentResp} {sha? : Option String}
    (hsha : getFileSha lookupResp = .ok sha?) (status : Nat) (msg : String) :
    commitFile token owner repo path content message lookupResp
      (fun _ _ => .err status msg) =
      .error (.error ("Could not commit file to GitHub: " ++ msg)) := by
  unfold commitFile
  rw [if_neg (by simp [ht, ho, hr, hp, hm]), hsha]

/-- Witness for the amended C1 at a concrete stale-sha rejection. -/
theorem commitFile_put_rejection_generic_witness :
    commitFile "t" "o" "r" "p" "Zm9v" "m" (.file "sha0" "Zm9v")
      (fun _ _ => .err 409 "conflict") =
      .error (.error ("Could not commit file to GitHub: " ++ "conflict")) :=
  commitFile_put_rejection_generic "t" "o" "r" "p" "Zm9v" "m"
    (by decide) (by decide) (by decide) (by decide) (by decide)
    (show getFileSha (.file "sha0" "Zm9v") = .ok (some "sha0") from rfl) 409 "conflict"

/-- C3 counterexample: `getRepoTree` returns literally equal values for a
truncated and a non-truncated host listing, so the returned value carries
no caller-visible truncation flag; the claim that the caller receives the
listing together with a flag signalling truncation is false. -/
theorem getRepoTree_truncation_invisible :
    getRepoTree "t" "o" "r" "main"
        (.ok ⟨[⟨"notes/a.md", "blob", "s1"⟩], true⟩) =
      getRepoTree "t" "o" "r" "main"
        (.ok ⟨[⟨"notes/a.md", "blob", "s1"⟩], false⟩) ∧
    getRepoTree "t" "o" "r" "main"
        (.ok ⟨[⟨"notes/a.md", "blob", "s1"⟩], true⟩) =
      .ok [⟨"notes/a.md", "blob", "s1"⟩] := by
  constructor <;> rfl

/-- C3 amended: truncation is never reported as a failure — a truncated
listing still yields the filtered (possibly incomplete) result — but the
truncation indicator is only logged and does not reach the caller: the
result is identical to the non-truncated one. -/
theorem getRepoTree_truncation_nonfatal
    (token owner repo tree_sha : String)
    (ht : token ≠ "") (ho : owner ≠ "") (hr : repo ≠ "") (hs : tree_sha ≠ "")
    (items : List RawTreeItem) :
    getRepoTree token owner repo tree_sha (.ok ⟨items, true⟩) =
      .ok (items.filter treeItemKeep) ∧
    getRepoTree token owner repo tree_sha (.ok ⟨items, true⟩) =
      getRepoTree token owner repo tree_sha (.ok ⟨items, false⟩) := by
  constructor <;>
    · unfold getRepoTree
      rw [if_neg (by simp [ht, ho, hr, hs])]

/-- Witness for the amended C3 at a concrete listing. -/
theorem getRepoTree_truncation_nonfatal_witness :
    getRepoTree "t" "o" "r" "main"
        (.ok ⟨[⟨"notes/a.md", "blob", "s1"⟩, ⟨".git/cfg", "blob", "s2"⟩], true⟩) =
      .ok [⟨"notes/a.md", "blob", "s1"⟩] ∧
    getRepoTree "t" "o" "r" "main"
        (.ok ⟨[⟨"notes/a.md", "blob", "s1"⟩, ⟨".git/cfg", "blob", "s2"⟩], true⟩) =
      getRepoTree "t" "o" "r" "main"
        (.ok ⟨[⟨"notes/a.md", "blob", "s1"⟩, ⟨".git/cfg", "blob", "s2"⟩], false⟩) :=
  ⟨((getRepoTree_truncation_nonfatal "t" "o" "r" "main"
      (by decide) (by decide) (by decide) (by decide)
      [⟨"notes/a.md", "blob", "s1"⟩, ⟨".git/cfg", "blob", "s2"⟩]).1).trans (by rfl),
   (getRepoTree_truncation_nonfatal "t" "o" "r" "main"
      (by decide) (by decide) (by decide) (by decide)
      [⟨"notes/a.md", "blob", "s1"⟩, ⟨".git/cfg", "blob", "s2"⟩]).2⟩

/-- C4 counterexample: the filter keeps `a/.h/x.md`, an entry under a
hidden dot-segment at depth one (the claim says every such entry is
excluded), and drops `ab.gitkeep`, whose final path component is not the
placeholder filename `.gitkeep` (the claim says exactly the
final-component matches and nothing else are excluded). -/
theorem getRepoTree_filter_counterexample :
    getRepoTree "t" "o" "r" "main"
        (.ok ⟨[⟨"a/.h/x.md", "blob", "s1"⟩, ⟨"ab.gitkeep", "blob", "s2"⟩], false⟩) =
      .ok [⟨"a/.h/x.md", "blob", "s1"⟩] ∧
    hasHiddenSegment "a/.h/x.md" = true ∧
    lastSegment "ab.gitkeep" ≠ ".gitkeep" := by
  refine ⟨rfl, rfl, by decide⟩

theorem lastSegment_suffix (p : String) :
    (p.data.reverse.takeWhile (· ≠ '/')).reverse <:+ p.data := by
  have h : p.data.reverse.takeWhile (· ≠ '/') <+: p.data.reverse := List.takeWhile_prefix _
  have h2 : (p.data.reverse.takeWhile (· ≠ '/')).reverse.reverse <+: p.data.reverse := by
    simpa using h
  exact List.reverse_prefix.mp h2

theorem endsWith_gitkeep_of_lastSegment {p : String}
    (h : lastSegment p = ".gitkeep") : endsWithS p ".gitkeep" = true := by
  unfold endsWithS
  rw [List.isSuffixOf_iff_suffix]
  have hs := lastSegment_suffix p
  have hd : (p.data.reverse.takeWhile (· ≠ '/')).reverse = ".gitkeep".data :=
    congrArg String.data h
  rw [hd] at hs
  exact hs

/-- C4 amended: the filtered listing contains only blob and tree entries,
and keeps exactly the entries with a nonempty path whose whole path does
not begin with a dot (hidden segments deeper than the first character are
not excluded) and does not end with the suffix `.gitkeep` (which excludes
every entry whose final component is the placeholder `.gitkeep`, but also
entries merely ending in it). -/
theorem getRepoTree_filter_exact
    (token owner repo tree_sha : String)
    (ht : token ≠ "") (ho : owner ≠ "") (hr : repo ≠ "") (hs : tree_sha ≠ "")
    (items : List RawTreeItem) (truncated : Bool) :
    ∃ l, getRepoTree token owner repo tree_sha (.ok ⟨items, truncated⟩) = .ok l ∧
      (∀ e, e ∈ l ↔ e ∈ items ∧ (e.type = "blob" ∨ e.type = "tree") ∧ e.path ≠ "" ∧
        startsWithS e.path "." = false ∧ endsWithS e.path ".gitkeep" = false) ∧
      (∀ e ∈ l, lastSegment e.path ≠ ".gitkeep") := by
  refine ⟨items.filter treeItemKeep, ?_, ?_, ?_⟩
  · unfold getRepoTree
    rw [if_neg (by simp [ht, ho, hr, hs])]
  · intro e
    rw [List.mem_filter]
    unfold treeItemKeep
    simp only [Bool.and_eq_true, Bool.or_eq_true, beq_iff_eq, bne_iff_ne, Bool.not_eq_true']
    tauto
  · intro e he hlast
    have hend := endsWith_gitkeep_of_lastSegment hlast
    have hb := (List.mem_filter.mp he).2
    unfold treeItemKeep at hb
    simp only [Bool.and_eq_true, Bool.not_eq_true'] at hb
    rw [hb.2] at hend
    exact absurd hend (by decide)

/-- Witness for the amended C4 at a concrete listing with a kept note, a
hidden-at-depth note, and a placeholder entry. -/
theorem getRepoTree_filter_exact_witness :
    ∃ l, getRepoTree "t" "o" "r" "main"
        (.ok ⟨[⟨"notes/a.md", "blob", "s1"⟩, ⟨"sub/.gitkeep", "blob", "s2"⟩], false⟩) =
          .ok l ∧
      (∀ e, e ∈ l ↔
        e ∈ [(⟨"notes/a.md", "blob", "s1"⟩ : RawTreeItem), ⟨"sub/.gitkeep", "blob", "s2"⟩] ∧
          (e.type = "blob" ∨ e.type = "tree") ∧ e.path ≠ "" ∧
          startsWithS e.path "." = false ∧ endsWithS e.path ".gitkeep" = false) ∧
      (∀ e ∈ l, lastSegment e.path ≠ ".gitkeep") :=
  getRepoTree_filter_exact "t" "o" "r" "main"
    (by decide) (by decide) (by decide) (by decide)
    [⟨"notes/a.md", "blob", "s1"⟩, ⟨"sub/.gitkeep", "blob", "s2"⟩] false

theorem commitShaOf_ne_empty (n : Nat) : commitShaOf n ≠ "" := by
  intro h
  have hd := congrArg String.data h
  simp [commitShaOf] at hd

/-- C8: writing `c1` to a path (producing a commit id) and then writing
`c2` to the same path leaves the pinned read at the first commit id still
returning exactly `c1`; and a pinned read of a path that has no file entry
in the pinned snapshot (absent, or a directory there) returns null rather
than raising. -/
theorem getFileContentAtCommit_pin_stable
    (token owner repo path c1 c2 m1 m2 : String) (h : Host)
    (ht : token ≠ "") (ho : owner ≠ "") (hr : repo ≠ "") (hp : path ≠ "")
    (hm1 : m1 ≠ "") (hm2 : m2 ≠ "")
    (hdir : isDirIn h.files path = false)
    (hwf : ∀ e ∈ h.files, e.2.sha ≠ "") :
    (∃ d1 h1 d2 h2,
      commitFileS token owner repo path (b64EncodeS (utf8EncodeS c1)) m1 h = (.ok d1, h1) ∧
      commitFileS token owner repo path (b64EncodeS (utf8EncodeS c2)) m2 h1 = (.ok d2, h2) ∧
      getFileContentAtCommitS token owner repo path d1.commitSha h2 = .ok (some c1)) ∧
    (∀ k snap, k ≠ "" → lookupCommit h k = some snap → lookupFile snap path = none →
      getFileContentAtCommitS token owner repo path k h = .ok none) := by
  constructor
  · have hb1 : b64DecodeL (b64EncodeS (utf8EncodeS c1)).data = utf8EncodeS c1 :=
      b64_roundtrip_string _ (utf8EncodeL_lt_256 c1.data)
    have hc1 := commitFileS_success token owner repo path
      (b64EncodeS (utf8EncodeS c1)) m1 h ht ho hr hp hm1 hdir hwf
    set F1 := upsertFile h.files path
      ⟨b64DecodeL (b64EncodeS (utf8EncodeS c1)).data, blobShaOf h.fresh⟩ with hF1
    set host1 : Host :=
      { files := F1, commits := (commitShaOf h.fresh, F1) :: h.commits,
        fresh := h.fresh + 1 } with hhost1
    have hdir1 : isDirIn host1.files path = false := by
      rw [hhost1]
      exact (isDirIn_upsert h.files path _).trans hdir
    have hwf1 : ∀ e ∈ host1.files, e.2.sha ≠ "" := by
      rw [hhost1]
      exact upsert_sha_ne hwf (blobShaOf_ne_empty h.fresh)
    have hc2 := commitFileS_success token owner repo path
      (b64EncodeS (utf8EncodeS c2)) m2 host1 ht ho hr hp hm2 hdir1 hwf1
    refine ⟨⟨blobShaOf h.fresh, commitShaOf h.fresh⟩, host1,
      ⟨blobShaOf host1.fresh, commitShaOf host1.fresh⟩, _, hc1, hc2, ?_⟩
    have hne : ((commitShaOf host1.fresh, upsertFile host1.files path
        ⟨b64DecodeL (b64EncodeS (utf8EncodeS c2)).data, blobShaOf host1.fresh⟩).1 ==
          commitShaOf h.fresh) = false := by
      rw [beq_eq_false_iff_ne]
      intro he
      have := commitShaOf_inj he
      rw [hhost1] at this
      simp at this
    have hfind : lookupCommit
        { files := upsertFile host1.files path
            ⟨b64DecodeL (b64EncodeS (utf8EncodeS c2)).data, blobShaOf host1.fresh⟩,
          commits := (commitShaOf host1.fresh, upsertFile host1.files path
            ⟨b64DecodeL (b64EncodeS (utf8EncodeS c2)).data, blobShaOf host1.fresh⟩) ::
              host1.commits,
          fresh := host1.fresh + 1 } (commitShaOf h.fresh) = some F1 := by
      unfold lookupCommit
      rw [List.find?_cons_of_neg _ (by simp [hne])]
      rw [hhost1]
      show Option.map _ (List.find? _ ((commitShaOf h.fresh, F1) :: h.commits)) = _
      rw [List.find?_cons_of_pos _ (by simp)]
      rfl
    show getFileContentAtCommitS token owner repo path (commitShaOf h.fresh) _ = _
    unfold getFileContentAtCommitS
    have hlkF1 : lookupFile F1 path = some ⟨utf8EncodeS c1, blobShaOf h.fresh⟩ := by
      rw [hF1, hb1]
      exact lookupFile_upsert _ _ _
    have hresp : hostGetContentAt
        { files := upsertFile host1.files path
            ⟨b64DecodeL (b64EncodeS (utf8EncodeS c2)).data, blobShaOf host1.fresh⟩,
          commits := (commitShaOf host1.fresh, upsertFile host1.files path
            ⟨b64DecodeL (b64EncodeS (utf8EncodeS c2)).data, blobShaOf host1.fresh⟩) ::
              host1.commits,
          fresh := host1.fresh + 1 } path (commitShaOf h.fresh) =
        .file (blobShaOf h.fresh) (b64EncodeS (utf8EncodeS c1)) := by
      unfold hostGetContentAt
      rw [hfind]
      simp only [hlkF1]
    rw [hresp]
    unfold getFileContentAtCommit
    rw [if_neg (by simp [ht, ho, hr, hp, commitShaOf_ne_empty])]
    show Except.ok (some (utf8DecodeS (b64DecodeL (b64EncodeS (utf8EncodeS c1)).data))) = _
    rw [hb1, utf8_roundtrip_string]
  · intro k snap hk hlc hlf
    unfold getFileContentAtCommitS
    have hresp : hostGetContentAt h path k =
        (if isDirIn snap path then .dir else .err 404 "Not Found") := by
      unfold hostGetContentAt
      rw [hlc]
      simp only [hlf]
    rw [hresp]
    unfold getFileContentAtCommit
    rw [if_neg (by simp [ht, ho, hr, hp, hk])]
    by_cases hd : isDirIn snap path = true
    · rw [if_pos hd]
    · rw [if_neg hd]
      rfl

/-- Witness for C8: on an empty host, write "v1" then "v2" to "n.md"; the
read pinned at the first commit still returns "v1", and a pinned read of a
different path in that snapshot returns null. -/
theorem getFileContentAtCommit_pin_stable_witness :
    (∃ d1 h1 d2 h2,
      commitFileS "t" "o" "r" "n.md" (b64EncodeS (utf8EncodeS "v1")) "m1" ⟨[], [], 0⟩ =
        (.ok d1, h1) ∧
      commitFileS "t" "o" "r" "n.md" (b64EncodeS (utf8EncodeS "v2")) "m2" h1 = (.ok d2, h2) ∧
      getFileContentAtCommitS "t" "o" "r" "n.md" d1.commitSha h2 = .ok (some "v1")) ∧
    (∀ k snap, k ≠ "" → lookupCommit ⟨[], [], 0⟩ k = some snap →
      lookupFile snap "n.md" = none →
      getFileContentAtCommitS "t" "o" "r" "n.md" k ⟨[], [], 0⟩ = .ok none) :=
  getFileContentAtCommit_pin_stable "t" "o" "r" "n.md" "v1" "v2" "m1" "m2" ⟨[], [], 0⟩
    (by decide) (by decide) (by decide) (by decide) (by decide) (by decide) rfl (by simp)

/-- C6: calling `ensureUserRepo` twice in sequence for the same owner
creates at most one repository: with no repository provisioned, the first
call creates exactly one (reporting `created = true`, i.e. existed=false)
and records it in the profile; the second call performs no host interaction
at all — the world is unchanged — and reports `created = false`
(existed=true). -/
theorem ensureUserRepo_idempotent
    (token owner : String) (w : World)
    (ht : token ≠ "") (ho : owner ≠ "")
    (hprof : w.profileRepoName = none)
    (habs : w.ghRepos.contains ("notehub-notes-" ++ owner) = false) :
    (ensureUserRepo token owner w).1.success = true ∧
    (ensureUserRepo token owner w).1.created = some true ∧
    ((ensureUserRepo token owner w).2).ghRepos =
      ("notehub-notes-" ++ owner) :: w.ghRepos ∧
    (ensureUserRepo token owner ((ensureUserRepo token owner w).2)).1.success = true ∧
    (ensureUserRepo token owner ((ensureUserRepo token owner w).2)).1.created = some false ∧
    (ensureUserRepo token owner ((ensureUserRepo token owner w).2)).2 =
      (ensureUserRepo token owner w).2 := by
  have hname : ("notehub-notes-" ++ owner) ≠ "" := append_ne_empty_left owner (by decide)
  have hchk : checkRepoExists token owner ("notehub-notes-" ++ owner) w.ghRepos = .ok false := by
    unfold checkRepoExists
    rw [if_neg (by simp [ht, ho, hname]), habs]
  have hcr : createGithubRepo token ("notehub-notes-" ++ owner) w.ghRepos =
      .ok (("notehub-notes-" ++ owner) :: w.ghRepos) := by
    unfold createGithubRepo
    rw [if_neg (by simp [ht, hname]), if_neg (by simpa using habs)]
  have h1 : ensureUserRepo token owner w =
      ({ success := true, repoName := some ("notehub-notes-" ++ owner),
         created := some true },
       { profileRepoName := some ("notehub-notes-" ++ owner),
         ghRepos := ("notehub-notes-" ++ owner) :: w.ghRepos }) := by
    unfold ensureUserRepo
    rw [hprof]
    simp only [hchk, hcr]
    rfl
  have h2 : ensureUserRepo token owner
      ({ profileRepoName := some ("notehub-notes-" ++ owner),
         ghRepos := ("notehub-notes-" ++ owner) :: w.ghRepos } : World) =
      ({ success := true, repoName := some ("notehub-notes-" ++ owner),
         created := some false },
       { profileRepoName := some ("notehub-notes-" ++ owner),
         ghRepos := ("notehub-notes-" ++ owner) :: w.ghRepos }) := by
    unfold ensureUserRepo
    rfl
  rw [h1]
  simp [h2]

/-- Witness for C6: a fresh world for owner "alice". -/
theorem ensureUserRepo_idempotent_witness :
    (ensureUserRepo "t" "alice" ⟨none, []⟩).1.success = true ∧
    (ensureUserRepo "t" "alice" ⟨none, []⟩).1.created = some true ∧
    ((ensureUserRepo "t" "alice" ⟨none, []⟩).2).ghRepos = ["notehub-notes-" ++ "alice"] ∧
    (ensureUserRepo "t" "alice" ((ensureUserRepo "t" "alice" ⟨none, []⟩).2)).1.success = true ∧
    (ensureUserRepo "t" "alice" ((ensureUserRepo "t" "alice" ⟨none, []⟩).2)).1.created =
      some false ∧
    (ensureUserRepo "t" "alice" ((ensureUserRepo "t" "alice" ⟨none, []⟩).2)).2 =
      (ensureUserRepo "t" "alice" ⟨none, []⟩).2 :=
  ensureUserRepo_idempotent "t" "alice" ⟨none, []⟩ (by decide) (by decide) rfl rfl

/-- Ordering the specification asks of sibling nodes: no file (blob) ever
precedes a directory (tree), and within one kind names are in
lexicographic order. -/
def siblingsOrdered (a b : NTree) : Prop :=
  ¬(a.type = "blob" ∧ b.type = "tree") ∧
    (a.type = b.type → leChars a.name.data b.name.data = true)

theorem nodeCmpLE_imp_siblingsOrdered {m : List PNode} {f1 f2 : Nat} {a b : PNode}
    (h : nodeCmpLE a b = true) :
    siblingsOrdered (buildNode m f1 a) (buildNode m f2 b) := by
  unfold siblingsOrdered
  rw [buildNode_type, buildNode_type, buildNode_name, buildNode_name]
  unfold nodeCmpLE at h
  by_cases c1 : (a.type == "tree" && b.type == "blob") = true
  · rw [if_pos c1] at h
    simp only [Bool.and_eq_true, beq_iff_eq] at c1
    constructor
    · rintro ⟨hab, _⟩
      rw [c1.1] at hab
      exact absurd hab (by decide)
    · intro he
      rw [c1.1, c1.2] at he
      exact absurd he (by decide)
  · rw [if_neg c1] at h
    by_cases c2 : (a.type == "blob" && b.type == "tree") = true
    · rw [if_pos c2] at h
      exact absurd h (by decide)
    · rw [if_neg c2] at h
      refine ⟨?_, fun _ => h⟩
      intro hcon
      apply c2
      simp [hcon.1, hcon.2]

theorem pairwise_siblings_map {m : List PNode} {l : List PNode} {fuel : Nat}
    (hl : ∀ y ∈ l, isBlobOrTree y) :
    ((sortNodes l).map (buildNode m fuel)).Pairwise siblingsOrdered :=
  (pairwise_sortNodes hl).map _ (fun _ _ hab => nodeCmpLE_imp_siblingsOrdered hab)

/-- C7: every sibling list of the materialized tree — the root level and
the children of every reachable node — is deterministically ordered with
directory (tree) nodes before file (blob) nodes and, within each kind,
lexicographically by name; in particular, for the root entries
{a/x.md, a, b.md} with `a` a directory, `a` precedes `b.md`. -/
theorem buildNestedTree_ordered (items : List GitHubTreeItem) :
    (buildNestedTree items).Pairwise siblingsOrdered ∧
    (∀ r t, r ∈ buildNestedTree items → Descend r t →
      t.children.Pairwise siblingsOrdered) ∧
    (buildNestedTree [⟨"a/x.md", "blob"⟩, ⟨"a", "tree"⟩, ⟨"b.md", "blob"⟩]).map NTree.path =
      ["a", "b.md"] := by
  refine ⟨?_, ?_, rfl⟩
  · unfold buildNestedTree
    exact pairwise_siblings_map
      (fun y hy => isBlobOrTree_of_mem_nodeMap (mem_rootNodes hy).1)
  · intro r t hr hd
    obtain ⟨fuel, n, _, rfl⟩ := descend_from_map hr hd
    cases fuel with
    | zero =>
      rw [buildNode_children_zero]
      exact List.Pairwise.nil
    | succ f =>
      rw [buildNode_children_succ]
      exact pairwise_siblings_map
        (fun y hy => isBlobOrTree_of_mem_nodeMap (mem_childNodes hy).1)

/-- Witness for C7: the concrete three-entry listing; the root level is
pairwise ordered, and so are the children of the reachable node `a`. -/
theorem buildNestedTree_ordered_witness :
    (buildNestedTree [⟨"a/x.md", "blob"⟩, ⟨"a", "tree"⟩, ⟨"b.md", "blob"⟩]).Pairwise
      siblingsOrdered ∧
    (NTree.node "a" "a" "tree" [NTree.node "a/x.md" "x.md" "blob" []]).children.Pairwise
      siblingsOrdered :=
  ⟨(buildNestedTree_ordered [⟨"a/x.md", "blob"⟩, ⟨"a", "tree"⟩, ⟨"b.md", "blob"⟩]).1,
   (buildNestedTree_ordered [⟨"a/x.md", "blob"⟩, ⟨"a", "tree"⟩, ⟨"b.md", "blob"⟩]).2.1
     (NTree.node "a" "a" "tree" [NTree.node "a/x.md" "x.md" "blob" []])
     (NTree.node "a" "a" "tree" [NTree.node "a/x.md" "x.md" "blob" []])
     (by
       rw [show buildNestedTree [⟨"a/x.md", "blob"⟩, ⟨"a", "tree"⟩, ⟨"b.md", "blob"⟩] =
         [NTree.node "a" "a" "tree" [NTree.node "a/x.md" "x.md" "blob" []],
          NTree.node "b.md" "b.md" "blob" []] from rfl]
       exact List.mem_cons_self _ _)
     Descend.refl⟩

/-- C9: in the materialized forest, a node is attached as a child only
under a tree-typed node whose path is the entry's path minus its final
segment and which is present in the listing map; an entry whose parent path
is absent from the map or maps to a blob entry is placed at the root of the
materialized tree instead. -/
theorem buildNestedTree_attachment (items : List GitHubTreeItem) :
    (∀ r t c, r ∈ buildNestedTree items → Descend r t → c ∈ t.children →
      t.type = "tree" ∧ parentPathOf c.path = t.path ∧
      ∃ q ∈ nodeMap items, q.path = parentPathOf c.path ∧ q.type = "tree") ∧
    (∀ n ∈ nodeMap items,
      (¬∃ q ∈ nodeMap items, q.path = parentPathOf n.path ∧ q.type = "tree") →
      ∃ r ∈ buildNestedTree items, r.path = n.path) := by
  constructor
  · intro r t c hr hd hc
    obtain ⟨fuel, n, hn, rfl⟩ := descend_from_map hr hd
    cases fuel with
    | zero =>
      rw [buildNode_children_zero] at hc
      simp at hc
    | succ f =>
      rw [buildNode_children_succ] at hc
      rcases List.mem_map.mp hc with ⟨n', hn', rfl⟩
      obtain ⟨hn'm, hatt, hpar⟩ := mem_childNodes (mem_sortNodes.mp hn')
      unfold isChildAttached at hatt
      cases hq : lookupNode (nodeMap items) (parentPathOf n'.path) with
      | none =>
        rw [hq] at hatt
        simp at hatt
      | some q =>
        rw [hq] at hatt
        simp only [Bool.and_eq_true, bne_iff_ne, beq_iff_eq] at hatt
        obtain ⟨hq_mem, hq_path⟩ := lookupNode_eq_some hq
        have hnq : q = n := by
          have h2 : lookupNode (nodeMap items) n.path = some n :=
            lookupNode_of_mem (nodeMap_paths_nodup items) hn
          rw [hpar] at hq
          rw [hq] at h2
          exact Option.some.inj h2
        refine ⟨?_, ?_, q, hq_mem, ?_, hatt.2⟩
        · rw [buildNode_type, ← hnq, hatt.2]
        · rw [buildNode_path, buildNode_path, hpar]
        · rw [buildNode_path, hq_path]
  · intro n hn hnex
    have hatt : isChildAttached (nodeMap items) n = false := by
      unfold isChildAttached
      cases hq : lookupNode (nodeMap items) (parentPathOf n.path) with
      | none => rfl
      | some q =>
        obtain ⟨hq_mem, hq_path⟩ := lookupNode_eq_some hq
        by_cases hqt : q.type = "tree"
        · exact absurd ⟨q, hq_mem, hq_path, hqt⟩ hnex
        · simp [hqt]
    refine ⟨buildNode (nodeMap items) (nodeMap items).length n, ?_, buildNode_path _ _ _⟩
    unfold buildNestedTree
    exact List.mem_map.mpr
      ⟨n, mem_sortNodes.mpr (rootNodes_of_not_attached hn hatt), rfl⟩

/-- Witness for C9: in the listing {a/x.md, a, b.md}, the child `a/x.md`
hangs under the tree node `a` (its parent path), and `b.md`, whose parent
path is absent from the map, sits at the root. -/
theorem buildNestedTree_attachment_witness :
    ((NTree.node "a" "a" "tree" [NTree.node "a/x.md" "x.md" "blob" []]).type = "tree" ∧
      parentPathOf (NTree.node "a/x.md" "x.md" "blob" []).path =
        (NTree.node "a" "a" "tree" [NTree.node "a/x.md" "x.md" "blob" []]).path ∧
      ∃ q ∈ nodeMap [⟨"a/x.md", "blob"⟩, ⟨"a", "tree"⟩, ⟨"b.md", "blob"⟩],
        q.path = parentPathOf (NTree.node "a/x.md" "x.md" "blob" []).path ∧
        q.type = "tree") ∧
    (∃ r ∈ buildNestedTree [⟨"a/x.md", "blob"⟩, ⟨"a", "tree"⟩, ⟨"b.md", "blob"⟩],
      r.path = "b.md") :=
  ⟨(buildNestedTree_attachment [⟨"a/x.md", "blob"⟩, ⟨"a", "tree"⟩, ⟨"b.md", "blob"⟩]).1
     (NTree.node "a" "a" "tree" [NTree.node "a/x.md" "x.md" "blob" []])
     (NTree.node "a" "a" "tree" [NTree.node "a/x.md" "x.md" "blob" []])
     (NTree.node "a/x.md" "x.md" "blob" [])
     (by
       rw [show buildNestedTree [⟨"a/x.md", "blob"⟩, ⟨"a", "tree"⟩, ⟨"b.md", "blob"⟩] =
         [NTree.node "a" "a" "tree" [NTree.node "a/x.md" "x.md" "blob" []],
          NTree.node "b.md" "b.md" "blob" []] from rfl]
       exact List.mem_cons_self _ _)
     Descend.refl
     (List.mem_cons_self _ _),
   (buildNestedTree_attachment [⟨"a/x.md", "blob"⟩, ⟨"a", "tree"⟩, ⟨"b.md", "blob"⟩]).2
     ⟨"b.md", "b.md", "blob"⟩
     (by
       rw [show nodeMap [⟨"a/x.md", "blob"⟩, ⟨"a", "tree"⟩, ⟨"b.md", "blob"⟩] =
         [⟨"a/x.md", "x.md", "blob"⟩, ⟨"a", "a", "tree"⟩, ⟨"b.md", "b.md", "blob"⟩] from rfl]
       simp)
     (by decide)⟩
